import Mathlib

/-! Verification development for the cargo-show-asm core: a shallow embedding of
the assembly statement parser (src/asm/statements.rs), the label classifier
(src/demangle.rs), the item finder (src/asm.rs), the context resolver and
range selection (src/lib.rs), and the range renderer (src/asm.rs), together
with theorems checking the specification's claims against this embedding.

Conventions of the embedding:
* `u64`/`usize` values are `Nat` (with an explicit `< 2^64` overflow check
  where the source's integer parser rejects overflow).
* Rust's fallible operations return `Option`/`Except`; a Rust `panic!` is an
  `Except.error`.
* `BTreeMap`/`HashMap` values are association lists with insert-replace
  semantics (`assocSet`, `insertBT`); key iteration order of `BTreeMap` is
  not modelled except where a claim needs it.
* The regex character classes are modelled over their ASCII fragment (the
  inputs of this domain are ASCII assembler text).
* External crates (`rustc_demangle`) are modelled as an oracle parameter
  `td : String → Option Demangle`.
-/

set_option maxHeartbeats 1000000

namespace ShowAsm

/-! Character classes of the regexes in src/demangle.rs -/

/-- Models `\w` (word character, ASCII fragment). -/
def isWordChar (c : Char) : Bool := c.isAlphanum || c = '_'

/-- Models `[a-zA-Z0-9_$.]`, the identifier class used by all three label regexes. -/
def isLabelChar (c : Char) : Bool := c.isAlphanum || c = '_' || c = '$' || c = '.'

/-- Models `[0-9_]`, the class used by the `LBB` alternative of the local-label regex. -/
def isLBBChar (c : Char) : Bool := c.isDigit || c = '_'

/-- Models `[^\w\d$.]`: the guard class of `LOCAL_LABELS_REGEX`. -/
def isLocalGuard (c : Char) : Bool := !(isLabelChar c)

inductive LabelKind where
  | Global
  | Local
  | Temp
  | Unknown
deriving DecidableEq, Repr

/-- Group of `LOCAL_LABELS_REGEX` at the head of the input:
`\.L[a-zA-Z0-9_$.]+` or `LBB[0-9_]+` (greedy), returning the matched text
and the rest. -/
def localTake : List Char → Option (List Char × List Char)
  | '.' :: 'L' :: rest =>
    let body := rest.takeWhile isLabelChar
    if body.isEmpty then none else some ('.' :: 'L' :: body, rest.drop body.length)
  | 'L' :: 'B' :: 'B' :: rest =>
    let body := rest.takeWhile isLBBChar
    if body.isEmpty then none else some ('L' :: 'B' :: 'B' :: body, rest.drop body.length)
  | _ => none

/-- Models `find_iter` of `LOCAL_LABELS_REGEX`: whole-match texts (which include the
consumed guard character when the match is not at the start of the text).
The fuel is one more than the input length; every step consumes at least one
character, so it never runs out. -/
def localLabelsGo : Nat → Bool → List Char → List (List Char)
  | 0, _, _ => []
  | _ + 1, _, [] => []
  | fuel + 1, atStart, c :: rest =>
    if isLocalGuard c then
      match localTake rest with
      | some (g, rest2) => (c :: g) :: localLabelsGo fuel false rest2
      | none => localLabelsGo fuel false rest
    else if atStart then
      match localTake (c :: rest) with
      | some (g, rest2) => g :: localLabelsGo fuel false rest2
      | none => localLabelsGo fuel false rest
    else localLabelsGo fuel false rest

/-- Models `demangle::local_labels`: all matches of `LOCAL_LABELS_REGEX`. -/
def local_labels (s : String) : List String :=
  (localLabelsGo (s.data.length + 1) true s.data).map fun l => ⟨l⟩

def localMatches (s : String) : Bool := !(local_labels s).isEmpty

/-- Match of `GLOBAL_LABELS_REGEX` (`\b_?(_[a-zA-Z0-9_$.]+)`) at the head of
the input (word boundary already checked by the caller): matched text and rest.
The optional leading underscore is greedy with backtracking, as in the regex. -/
def globalTakeAt : List Char → Option (List Char × List Char)
  | '_' :: rest =>
    match rest with
    | '_' :: c :: rest2 =>
      if isLabelChar c then
        let body := (c :: rest2).takeWhile isLabelChar
        some ('_' :: '_' :: body, (c :: rest2).drop body.length)
      else
        some (['_', '_'], c :: rest2)
    | _ =>
      let body := rest.takeWhile isLabelChar
      if body.isEmpty then none else some ('_' :: body, rest.drop body.length)
  | _ => none

/-- Word boundary before a word character: start of text or previous char
not a word character. -/
def boundaryB : Option Char → Bool
  | none => true
  | some p => !isWordChar p

/-- Leftmost match of `GLOBAL_LABELS_REGEX` (as in `Regex::find`). -/
def globalGoFirst : Nat → Option Char → List Char → Option (List Char)
  | 0, _, _ => none
  | _ + 1, _, [] => none
  | fuel + 1, prev, c :: rest =>
    if boundaryB prev then
      match globalTakeAt (c :: rest) with
      | some (m, _) => some m
      | none => globalGoFirst fuel (some c) rest
    else globalGoFirst fuel (some c) rest

/-- Models `demangle::global_reference`: text of the first match of the
global-label regex, if any. -/
def global_reference (s : String) : Option String :=
  (globalGoFirst (s.data.length + 1) none s.data).map fun l => ⟨l⟩

def globalMatches (s : String) : Bool := (global_reference s).isSome

/-- Models `TEMP_LABELS_REGEX` (`\b(Ltmp[0-9]+)\b`) matching at the head of the
input (leading boundary already checked): maximal digit run followed by a
word boundary. -/
def startsLtmp : List Char → Bool
  | 'L' :: 't' :: 'm' :: 'p' :: rest =>
    let ds := rest.takeWhile Char.isDigit
    if ds.isEmpty then false
    else
      match rest.drop ds.length with
      | [] => true
      | d :: _ => !isWordChar d
  | _ => false

def tempGoAux : Option Char → List Char → Bool
  | _, [] => false
  | prev, c :: rest => (boundaryB prev && startsLtmp (c :: rest)) || tempGoAux (some c) rest

def tempMatches (s : String) : Bool := tempGoAux none s.data

/-- Models `demangle::label_kind`: `RegexSet` membership is tested for the local,
global and temp regex (pattern indices 0, 1, 2); the smallest matching index
wins, no match is `Unknown`. -/
def label_kind (s : String) : LabelKind :=
  if localMatches s then .Local
  else if globalMatches s then .Global
  else if tempMatches s then .Temp
  else .Unknown

/-! The demangler oracle

`rustc_demangle::try_demangle` belongs to an external crate; it is modelled
as an oracle returning the two renderings the program uses:
`hashed` is `format!("{:?}", d)` and `name` is `format!("{:#?}", d)`. -/

structure Demangle where
  hashed : String
  name : String
deriving DecidableEq, Repr

/-- Rust `str::starts_with`, via the character lists (Lean's own
`String.startsWith` is not kernel-reducible). -/
def strStarts (s pre : String) : Bool := pre.data.isPrefixOf s.data

/-- Models `demangle::demangled`: strip one leading underscore of a `__`-prefixed
name, then try to demangle. -/
def demangled (td : String → Option Demangle) (input : String) : Option Demangle :=
  if strStarts input "__" then td ⟨input.data.drop 1⟩ else td input

/-! The statement data model (src/asm/statements.rs) -/

structure Loc where
  file : Nat
  line : Nat
  column : Nat
  extra : Option String
deriving DecidableEq, Repr

instance : Inhabited Loc := ⟨⟨0, 0, 0, none⟩⟩

/-- Models `PartialEq for Loc`: equality on `(file, line)` only. -/
def locEq (a b : Loc) : Bool := a.file == b.file && a.line == b.line

inductive FilePath where
  | FullPath (path : String)
  | PathAndFileName (path name : String)
deriving DecidableEq, Repr

structure File where
  index : Nat
  path : FilePath
  md5 : Option String
deriving DecidableEq, Repr

structure Instruction where
  op : String
  args : Option String
deriving DecidableEq, Repr

structure Label where
  id : String
  kind : LabelKind
deriving DecidableEq, Repr

inductive Directive where
  | file (f : File)
  | loc (l : Loc)
  | global (name : String)
  | generic (raw : String)
  | symIsFun (name : String)
  | setValue (name value : String)
  | subsectionsViaSym
  | sectionStart (name : String)
  | data (kind payload : String)
deriving DecidableEq, Repr

inductive Statement where
  | label (l : Label)
  | directive (d : Directive)
  | instruction (i : Instruction)
  | nothing
  | dunno (raw : String)
deriving DecidableEq, Repr

/-- Models `Statement::is_end_of_fn`: a label whose id, after `strip_prefix('.')`,
starts with `Lfunc_end`. -/
def stripDotL (cs : List Char) : List Char :=
  match cs with
  | c :: rest => if c = '.' then rest else c :: rest
  | [] => []

def Statement.is_end_of_fn : Statement → Bool
  | .label l => "Lfunc_end".data.isPrefixOf (stripDotL l.id.data)
  | _ => false

/-- Amended-specification reading of the end-of-function predicate, stated
independently of the code: a label whose identifier starts with
`.Lfunc_end` or with `Lfunc_end` (and nothing else, in particular not a
`cfi_endproc` directive). -/
def specEndOfFn : Statement → Bool
  | .label l =>
    ".Lfunc_end".data.isPrefixOf l.id.data || "Lfunc_end".data.isPrefixOf l.id.data
  | _ => false

def Statement.is_section_start : Statement → Bool
  | .directive (.sectionStart _) => true
  | _ => false

def Statement.is_global : Statement → Bool
  | .directive (.global _) => true
  | _ => false

/-- Models `Statement::boring`: skipped by `--simplify`. -/
def Statement.boring : Statement → Bool
  | .directive (.setValue _ _) => false
  | .directive (.sectionStart name) =>
    !(strStarts name ".data" || strStarts name ".rodata")
  | .directive _ => true
  | .dunno _ => true
  | _ => false

/-! The line parser (nom grammar of src/asm/statements.rs)

A parser consumes a prefix of a character list and reports the parsed value
together with the number of characters consumed (`none` is a nom `Err`). -/

abbrev P (α : Type) := List Char → Option (α × Nat)

/-- nom `tag`. -/
def ptag (pat : String) : P Unit := fun cs =>
  if pat.data.isPrefixOf cs then some ((), pat.data.length) else none

/-- nom `take_while1`. -/
def ptakeWhile1 (f : Char → Bool) : P (List Char) := fun cs =>
  let t := cs.takeWhile f
  if t.isEmpty then none else some (t, t.length)

/-- nom space characters (`space0`/`space1` accept only `' '` and `'\t'`). -/
def isNomSpace (c : Char) : Bool := c = ' ' || c = '\t'

/-- nom `not_line_ending`: the longest prefix without `'\r'` or `'\n'`;
errors when it stops at a `'\r'` not followed by `'\n'`. -/
def notLineEnding : P (List Char) := fun cs =>
  let t := cs.takeWhile fun c => c ≠ '\n' && c ≠ '\r'
  match cs.drop t.length with
  | '\r' :: '\n' :: _ => some (t, t.length)
  | '\r' :: _ => none
  | _ => some (t, t.length)

def digitsToNat (ds : List Char) : Nat :=
  ds.foldl (fun a c => a * 10 + (c.toNat - '0'.toNat)) 0

/-- nom `complete::u64`: one or more digits, rejecting overflow past `u64`. -/
def pu64 : P Nat := fun cs =>
  let ds := cs.takeWhile Char.isDigit
  if ds.isEmpty then none
  else
    let v := digitsToNat ds
    if v < 2 ^ 64 then some (v, ds.length) else none

/-- ASCII hexadecimal digit. -/
def isHexDigitC (c : Char) : Bool :=
  c.isDigit || ('a' ≤ c && c ≤ 'f') || ('A' ≤ c && c ≤ 'F')

/-- nom `hex_digit1`. -/
def phexDigit1 : P (List Char) := ptakeWhile1 isHexDigitC

/-- One escape code after the control character `'\\'`, as in the
`escaped_transform` alternation of `parse_quoted_string` (src order:
`\\`, `\"`, `b`, `f`, `n`, `r`, `t`, three octal digits). -/
def escCode : List Char → Option (Char × Nat)
  | '\\' :: _ => some ('\\', 1)
  | '"' :: _ => some ('"', 1)
  | 'b' :: _ => some ('\x08', 1)
  | 'f' :: _ => some ('\x0c', 1)
  | 'n' :: _ => some ('\n', 1)
  | 'r' :: _ => some ('\r', 1)
  | 't' :: _ => some ('\t', 1)
  | d1 :: d2 :: d3 :: _ =>
    if ('0' ≤ d1 && d1 ≤ '7') && ('0' ≤ d2 && d2 ≤ '7') && ('0' ≤ d3 && d3 ≤ '7') then
      some (Char.ofNat (((d1.toNat - '0'.toNat) * 8 + (d2.toNat - '0'.toNat)) * 8 +
        (d3.toNat - '0'.toNat)), 3)
    else none
  | _ => none

/-- Loop of nom `escaped_transform(none_of("\\\""), '\\', ...)`: ordinary
characters pass through, `'\\'` starts an escape (whose failure is an error),
`'"'` stops the loop (an error when nothing was consumed yet).  The fuel is
an upper bound on the iteration count; every iteration consumes at least one
character, so `length + 1` suffices. -/
def escapedGo : Nat → List Char → List Char → Nat → Option (List Char × Nat)
  | 0, _, _, _ => none
  | _ + 1, acc, [], n => some (acc.reverse, n)
  | fuel + 1, acc, c :: rest, n =>
    if c = '"' then
      if n = 0 then none else some (acc.reverse, n)
    else if c = '\\' then
      match escCode rest with
      | some (o, k) => escapedGo fuel (o :: acc) (rest.drop k) (n + 1 + k)
      | none => none
    else escapedGo fuel (c :: acc) rest (n + 1)

/-- Models `parse_quoted_string`: a quote-delimited, escape-transformed string. -/
def parse_quoted_string : P String := fun cs =>
  match cs with
  | '"' :: rest =>
    match escapedGo (rest.length + 1) [] rest 0 with
    | none => none
    | some (out, n) =>
      match rest.drop n with
      | '"' :: _ => some (⟨out⟩, 1 + n + 1)
      | _ => none
  | _ => none

/-- Models `fixup_windows_file_path`: restore the second backslash of a `\?\` path. -/
def fixup_windows_file_path (p : String) : String :=
  if "\\?\\".data.isPrefixOf p.data then ⟨'\\' :: p.data⟩ else p

/-- Parser combinators mirroring nom: sequence, map, option, ordered choice. -/
def pthen (p : P α) (f : α → P β) : P β := fun cs =>
  match p cs with
  | none => none
  | some (a, n) =>
    match f a (cs.drop n) with
    | none => none
    | some (b, m) => some (b, n + m)

def pmap (f : α → β) (p : P α) : P β := fun cs =>
  match p cs with
  | some (a, n) => some (f a, n)
  | none => none

def popt (p : P α) : P (Option α) := fun cs =>
  match p cs with
  | some (a, n) => some (some a, n)
  | none => some (none, 0)

def palt (p q : P α) : P α := fun cs =>
  match p cs with
  | some r => some r
  | none => q cs

def pspace1 : P Unit := pmap (fun _ => ()) (ptakeWhile1 isNomSpace)

def pspace0 : P Unit := fun cs => some ((), (cs.takeWhile isNomSpace).length)

/-- Models `good_for_label`. -/
def good_for_label (c : Char) : Bool :=
  c = '.' || c = '$' || c = '_' || c.isAlphanum

/-- Models `File::parse`, DWARF branch: `\t.file\t fileno [dirname] "filename" [md5]`. -/
def fileDwarf : P File :=
  pthen (ptag "\t.file\t") fun _ =>
  pthen pu64 fun fileno =>
  pthen pspace1 fun _ =>
  pthen parse_quoted_string fun filepath =>
  pthen (popt (pthen pspace1 fun _ => parse_quoted_string)) fun filename =>
  pmap
    (fun md5 =>
      { index := fileno
        path :=
          match filename with
          | some fn => .PathAndFileName filepath fn
          | none => .FullPath filepath
        md5 := md5.map fun l => (⟨l⟩ : String) })
    (popt (pthen pspace1 fun _ => phexDigit1))

/-- Models `File::parse`, CodeView branch:
`\t.cv_file\t fileno "filename" ["checksum"] [checksumkind]`. -/
def fileCv : P File :=
  pthen (ptag "\t.cv_file\t") fun _ =>
  pthen pu64 fun fileno =>
  pthen pspace1 fun _ =>
  pthen parse_quoted_string fun filename =>
  pthen (popt (pthen pspace1 fun _ =>
    pthen (ptag "\"") fun _ =>
    pthen phexDigit1 fun h =>
    pmap (fun _ => h) (ptag "\""))) fun checksum =>
  pmap
    (fun checksumkind =>
      { index := fileno
        path := .FullPath (fixup_windows_file_path filename)
        md5 :=
          if checksumkind = some 1 then checksum.map fun l => (⟨l⟩ : String)
          else none })
    (popt (pthen pspace1 fun _ => pu64))

def fileP : P File := palt fileDwarf fileCv

/-- Models `Loc::parse`: `\t.loc\t file line col [extra]` or the `\t.cv_loc\t` form
with a leading function id. -/
def locP : P Loc :=
  pthen
    (palt (pmap (fun _ => ()) (ptag "\t.loc\t"))
      (pthen (ptag "\t.cv_loc\t") fun _ => pthen pu64 fun _ => pspace1)) fun _ =>
  pthen pu64 fun file =>
  pthen pspace1 fun _ =>
  pthen pu64 fun line =>
  pthen pspace1 fun _ =>
  pthen pu64 fun column =>
  pmap
    (fun extra =>
      { file := file, line := line, column := column
        extra := extra.map fun l => (⟨l⟩ : String) })
    (popt (pthen (ptag " ") fun _ => ptakeWhile1 (· ≠ '\n')))

/-- Models `Label::parse`: identifier, then either `: # @...` (the LLVM annotation
comment, discarded) or a bare `:`. -/
def labelP : P Statement := fun cs =>
  let id := cs.takeWhile good_for_label
  if id.isEmpty then none
  else
    match cs.drop id.length with
    | ':' :: r2 =>
      let sp := r2.takeWhile (· = ' ')
      let commentLen : Option Nat :=
        if sp.isEmpty then none
        else
          match r2.drop sp.length with
          | '#' :: ' ' :: '@' :: r3 =>
            let body := r3.takeWhile (· ≠ '\n')
            if body.isEmpty then none else some (sp.length + 3 + body.length)
          | _ => none
      let stmt := Statement.label ⟨⟨id⟩, label_kind ⟨id⟩⟩
      match commentLen with
      | some k => some (stmt, id.length + 1 + k)
      | none => some (stmt, id.length + 1)
    | _ => none

def globalDirP : P Directive :=
  pthen pspace0 fun _ =>
  pthen (palt (ptag ".globl") (ptag ".global")) fun _ =>
  pthen pspace1 fun _ =>
  pmap (fun name => Directive.global ⟨name⟩)
    (ptakeWhile1 fun c => good_for_label c || c = '@')

def setP : P Directive :=
  pthen (ptag ".set") fun _ =>
  pthen pspace1 fun _ =>
  pthen (ptakeWhile1 good_for_label) fun name =>
  pthen (ptag ",") fun _ =>
  pthen pspace0 fun _ =>
  pmap (fun val => Directive.setValue ⟨name⟩ ⟨val⟩) (ptakeWhile1 (· ≠ '\n'))

def ssvsP : P Directive :=
  pmap (fun _ => Directive.subsectionsViaSym) (ptag ".subsections_via_symbols")

/-- Rust `str::trim` (ASCII whitespace fragment). -/
def trimS (s : String) : String :=
  ⟨((s.data.dropWhile Char.isWhitespace).reverse.dropWhile Char.isWhitespace).reverse⟩

def sectionP : P Directive :=
  pthen (ptag "\t.section") fun _ =>
  pmap (fun s => Directive.sectionStart (trimS ⟨s⟩)) (ptakeWhile1 (· ≠ '\n'))

def typP : P Directive :=
  pthen (ptag "\t.type") fun _ =>
  pthen pspace1 fun _ =>
  pthen (ptakeWhile1 good_for_label) fun id =>
  pmap (fun _ => Directive.symIsFun ⟨id⟩) (ptag ",@function")

/-- Models `\s` of the data-declaration regex (ASCII fragment). -/
def isRegexSpace (c : Char) : Bool :=
  c = ' ' || c = '\t' || c = '\n' || c = '\r' || c = '\x0b' || c = '\x0c'

/-- The data-declaration mnemonics of `parse_data_dec`, in the preference
order of the regex alternation (optional suffixes expanded, longest first). -/
def dataMnemonics : List String :=
  ["ascii", "asciz", "1byte", "2byte", "4byte", "8byte", "byte",
   "dc.a", "dc.b", "dc.d", "dc.l", "dc.s", "dc.w", "dc.x", "dc",
   "dcb.b", "dcb.d", "dcb.l", "dcb.s", "dcb.w", "dcb.x", "dcb",
   "ds.b", "ds.d", "ds.l", "ds.p", "ds.s", "ds.w", "ds.x", "ds",
   "double", "dword", "fill", "float", "half", "hword", "int", "long",
   "octa", "quad", "short", "single", "skip", "space",
   "string8", "string16", "string32", "string64", "string",
   "value", "word", "xword", "zero"]

/-- Models `\s+([^\n]+)` after a mnemonic: greedy whitespace run, then the payload
capture; when the input ends inside the whitespace run the engine backtracks
and captures the last non-newline whitespace character. -/
def dataTail (rest : List Char) : Option (List Char × Nat) :=
  let w := rest.takeWhile isRegexSpace
  if w.isEmpty then none
  else
    match rest.drop w.length with
    | [] =>
      let w1 := w.drop 1
      let k := (w1.reverse.takeWhile (· = '\n')).length
      if k = w1.length then none
      else
        match (w1.reverse.drop k).head? with
        | some c => some ([c], w.length - k)
        | none => none
    | _ =>
      let payload := (rest.drop w.length).takeWhile (· ≠ '\n')
      some (payload, w.length + payload.length)

def dataFind : List String → List Char → Option (Directive × Nat)
  | [], _ => none
  | mn :: more, m =>
    if mn.data.isPrefixOf m then
      match dataTail (m.drop mn.data.length) with
      | some (payload, k) => some (.data mn ⟨payload⟩, mn.data.length + k)
      | none => dataFind more m
    else dataFind more m

/-- Models `parse_data_dec`: the `^\s*\.(mnemonic)\s+([^\n]+)` regex; consumption
stops at the end of the payload capture group. -/
def parse_data_dec : P Directive := fun cs =>
  let w0 := cs.takeWhile isRegexSpace
  match cs.drop w0.length with
  | '.' :: m =>
    match dataFind dataMnemonics m with
    | some (d, k) => some (d, w0.length + 1 + k)
    | none => none
  | _ => none

def genericP : P Directive :=
  pthen (ptag "\t.") fun _ =>
  pmap (fun s => Directive.generic ⟨s⟩) (ptakeWhile1 (· ≠ '\n'))

/-- Models `Instruction::parse_regular`. -/
def instrRegular : P Instruction := fun cs =>
  let op := cs.takeWhile fun c => c.isAlphanum || c = '.' || c = '_'
  if op.isEmpty then none
  else
    let rest := cs.drop op.length
    let sp := rest.takeWhile isNomSpace
    if sp.isEmpty then some (⟨⟨op⟩, none⟩, op.length)
    else
      match notLineEnding (rest.drop sp.length) with
      | some (t, n) => some (⟨⟨op⟩, some ⟨t⟩⟩, op.length + sp.length + n)
      | none => some (⟨⟨op⟩, none⟩, op.length)

/-- Models `Instruction::parse_sharp`: one or two `#`, then the rest of the line. -/
def instrSharp : P Instruction := fun cs =>
  match cs with
  | '#' :: '#' :: r2 =>
    match notLineEnding r2 with
    | some (t, n) => some (⟨⟨'#' :: '#' :: t⟩, none⟩, 2 + n)
    | none => none
  | '#' :: rest =>
    match notLineEnding rest with
    | some (t, n) => some (⟨⟨'#' :: t⟩, none⟩, 1 + n)
    | none => none
  | _ => none

def instrP : P Statement := fun cs =>
  match cs with
  | '\t' :: rest =>
    match palt instrRegular instrSharp rest with
    | some (i, n) => some (.instruction i, 1 + n)
    | none => none
  | _ => none

/-- nom `verify(not_line_ending, str::is_empty)`. -/
def nothingP : P Statement := fun cs =>
  match notLineEnding cs with
  | some ([], _) => some (.nothing, 0)
  | _ => none

def dunnoP : P Statement := pmap (fun t => .dunno ⟨t⟩) (ptakeWhile1 (· ≠ '\n'))

def dirP : P Statement :=
  pmap .directive
    (palt (pmap .file fileP)
      (palt globalDirP
        (palt (pmap .loc locP)
          (palt setP
            (palt ssvsP
              (palt sectionP
                (palt typP (palt parse_data_dec genericP))))))))

def statementAlt : P Statement :=
  palt labelP (palt dirP (palt instrP (palt nothingP dunnoP)))

/-- Models `parse_statement`: one alternative, then a mandatory newline.  A
successful alternative that does not reach the end of the line makes the
whole statement parser fail (no fallback to `Dunno`), exactly as in
`terminated(alt(...), newline)`. -/
def parse_statement : P Statement := fun cs =>
  match statementAlt cs with
  | none => none
  | some (s, n) =>
    match cs.drop n with
    | '\n' :: _ => some (s, n + 1)
    | _ => none

/-- nom `many0(parse_statement)`: repeat until failure, rejecting
zero-length progress; the fuel is an iteration bound (each iteration
consumes at least the newline, so `length + 1` suffices). -/
def many0PS : Nat → List Char → Option (List Statement × List Char)
  | 0, _ => none
  | fuel + 1, cs =>
    match parse_statement cs with
    | none => some ([], cs)
    | some (s, n) =>
      if n = 0 then none
      else
        match many0PS fuel (cs.drop n) with
        | none => none
        | some (ss, rest) => some (s :: ss, rest)

inductive ParseErr where
  | leftovers (s : String)
  | leftoversPrefix (s : String)
  | nomError
deriving DecidableEq, Repr

def utf8Len (l : List Char) : Nat := (l.map Char.utf8Size).sum

/-- Models `parse_file`: run `many0`; success only when everything was consumed,
otherwise report the leftovers (truncated to 200 characters when they are at
least 1000 bytes long). -/
def parse_file (input : String) : Except ParseErr (List Statement) :=
  match many0PS (input.data.length + 1) input.data with
  | some (stmts, []) => .ok stmts
  | some (_, lo) =>
    if utf8Len lo < 1000 then .error (.leftovers ⟨lo⟩)
    else .error (.leftoversPrefix ⟨lo.take 200⟩)
  | none => .error .nomError

/-- Number of newline characters, i.e. the number of newline-terminated
lines of the input. -/
def countNL (cs : List Char) : Nat := cs.countP (· == '\n')

/-! Items, ranges and the item finder (src/lib.rs, src/asm.rs) -/

/-- Models `Item` (src/lib.rs). -/
structure Item where
  name : String
  hashed : String
  index : Nat
  len : Nat
  non_blank_len : Nat
  mangled_name : String
deriving DecidableEq, Repr

/-- Models `URange` (src/lib.rs); the field `stop` models the source's `end`
(a reserved word in Lean). -/
structure URange where
  start : Nat
  stop : Nat
deriving DecidableEq, Repr

/-- Models `URange::fully_contains`, exactly as in src/lib.rs:
`self.start >= other.start && self.end <= other.end`. -/
def URange.fully_contains (self other : URange) : Bool :=
  decide (self.start ≥ other.start) && decide (self.stop ≤ other.stop)

/-- Models `body[range]` for an in-bounds range (Rust would panic out of bounds;
the model truncates). -/
def sliceL (l : List α) (r : URange) : List α :=
  (l.drop r.start).take (r.stop - r.start)

/-- Association-list update with insert-replace semantics, used to model
both `BTreeMap::insert` and `HashMap::insert`. -/
def assocSet [DecidableEq κ] : List (κ × ν) → κ → ν → List (κ × ν)
  | [], k, v => [(k, v)]
  | (k', v') :: rest, k, v =>
    if k' = k then (k, v) :: rest else (k', v') :: assocSet rest k v

def assocFind [DecidableEq κ] : List (κ × ν) → κ → Option ν
  | [], _ => none
  | (k', v') :: rest, k => if k' = k then some v' else assocFind rest k

/-- Counter map read: `names.entry(name).or_insert(0)` before the bump. -/
def assocGetD [DecidableEq κ] (l : List (κ × Nat)) (k : κ) : Nat :=
  (assocFind l k).getD 0

/-- Models `res.insert(item, range)` on the item map. -/
def insertBT : List (Item × URange) → Item → URange → List (Item × URange)
  | [], k, v => [(k, v)]
  | (k', v') :: rest, k, v =>
    if k' = k then (k, v) :: rest else (k', v') :: insertBT rest k v

/-- Models `get_item_in_section` (src/asm.rs): the section/global text must start
with the label id; optionally strip one leading underscore. -/
def get_item_in_section (ix : Nat) (label : Label) (ss : String)
    (strip_underscore : Bool) : Option Item :=
  if !(strStarts ss label.id) then none
  else
    let name :=
      if strip_underscore && strStarts label.id "_" then
        (⟨label.id.data.drop 1⟩ : String)
      else label.id
    some ⟨name, name, 0, ix, 0, label.id⟩

/-- The `for line in &lines[sec_start..ix]` search of
`handle_non_mangled_labels`: first `.globl` whose text matches the label. -/
def firstGlobalMatch (ix : Nat) (label : Label) (isMac : Bool) :
    List Statement → Option Item
  | [] => none
  | .directive (.global g) :: rest =>
    match get_item_in_section ix label g isMac with
    | some it => some it
    | none => firstGlobalMatch ix label isMac rest
  | _ :: rest => firstGlobalMatch ix label isMac rest

/-- Models `handle_non_mangled_labels` (src/asm.rs). -/
def handle_non_mangled_labels (lines : List Statement) (ix : Nat)
    (label : Label) (sec_start : Nat) : Option Item :=
  match lines.get? sec_start with
  | some (.directive (.sectionStart ss)) =>
    let isMac := ss = "__TEXT,__text,regular,pure_instructions"
    let isWindows := strStarts ss ".text,\"xr\",one_only,"
    if isWindows || isMac then
      firstGlobalMatch ix label isMac (sliceL lines ⟨sec_start, ix⟩)
    else
      if strStarts ss ".text." then
        get_item_in_section ix label ⟨ss.data.drop ".text.".data.length⟩ false
      else none
  | some (.directive (.global g)) => get_item_in_section ix label g true
  | _ => none

/-- State of the forward scan of `find_items`. -/
structure ScanState where
  secStart : Nat
  item : Option Item
  names : List (String × Nat)
  res : List (Item × URange)
deriving Repr

/-- One iteration of the forward scan of `find_items` at statement index
`ix`. -/
def scanStep (td : String → Option Demangle) (lines : List Statement)
    (st : ScanState) (ix : Nat) (line : Statement) : ScanState :=
  if line.is_section_start then
    if st.item.isNone then { st with secStart := ix } else st
  else if line.is_global && st.secStart + 3 < ix then
    { st with secStart := ix }
  else if line.is_end_of_fn then
    match st.item with
    | some it =>
      let fin := { it with len := ix - it.len, non_blank_len := ix - it.len }
      { st with item := none, res := insertBT st.res fin ⟨st.secStart, ix⟩ }
    | none => st
  else
    match line with
    | .label l =>
      match demangled td l.id with
      | some dem =>
        let idx := assocGetD st.names dem.name
        { st with
          names := assocSet st.names dem.name (idx + 1)
          item := some ⟨dem.name, dem.hashed, idx, ix, 0, l.id⟩ }
      | none =>
        if l.kind = .Unknown || l.kind = .Global then
          match handle_non_mangled_labels lines ix l st.secStart with
          | some i =>
            let idx := assocGetD st.names i.name
            { st with
              names := assocSet st.names i.name (idx + 1)
              item := some { i with index := idx } }
          | none => st
        else st
    | _ => st

/-- The `globals` map of the merged-function pass: export name to the index
of its (last) `.globl` directive, as collected into a `HashMap`. -/
def globalsMap (lines : List Statement) : List (String × Nat) :=
  lines.enum.foldl
    (fun m p =>
      match p.2 with
      | .directive (.global name) => assocSet m name p.1
      | _ => m)
    []

/-- One iteration of the merged-function pass of `find_items` at statement
index `e`: a `.set name, _` whose `name` was exported at index `start`
yields an item over `start..e+1` when that span is at most 10 statements
long and `name` demangles. -/
def mergedStep (td : String → Option Demangle) (G : List (String × Nat))
    (nr : List (String × Nat) × List (Item × URange)) (e : Nat)
    (line : Statement) : List (String × Nat) × List (Item × URange) :=
  match line with
  | .directive (.setValue name _) =>
    match assocFind G name with
    | some start =>
      if e + 1 - start > 10 then nr
      else
        match demangled td name with
        | some dem =>
          (assocSet nr.1 dem.name (assocGetD nr.1 dem.name + 1),
           insertBT nr.2
             ⟨dem.name, dem.hashed, assocGetD nr.1 dem.name,
              e + 1 - start, e + 1 - start, name⟩
             ⟨start, e + 1⟩)
        | none => nr
    | none => nr
  | _ => nr

/-- Models `find_items` (src/asm.rs): the forward scan followed by the
merged-function pass, sharing the per-name index counters. -/
def find_items (td : String → Option Demangle) (lines : List Statement) :
    List (Item × URange) :=
  let st :=
    lines.enum.foldl (fun st p => scanStep td lines st p.1 p.2)
      (⟨0, none, [], []⟩ : ScanState)
  let G := globalsMap lines
  (lines.enum.foldl (fun nr p => mergedStep td G nr p.1 p.2) (st.names, st.res)).2

/-! Formatting options (src/opts.rs) -/

inductive NameDisplay where
  | Full | Short | Mangled
deriving DecidableEq, Repr

inductive RedundantLabels where
  | Keep | Blanks | Strip
deriving DecidableEq, Repr

inductive SourcesFrom where
  | ThisWorkspace | AllCrates | AllSources
deriving DecidableEq, Repr

structure Format where
  rust : Bool
  context : Nat
  color : Bool
  name_display : NameDisplay
  redundant_labels : RedundantLabels
  verbosity : Nat
  simplify : Bool
  include_constants : Bool
  keep_blank : Bool
  sources_from : SourcesFrom
deriving Repr

inductive ToDump where
  | everything
  | byIndex (value : Nat)
  | function (function : String) (nth : Option Nat)
  | unspecified
deriving DecidableEq, Repr

/-! Goal selection (src/lib.rs `get_dump_range`) -/

/-- Outcome of `get_dump_range`: a concrete range, "dump the whole file"
(`None` in the source), or a suggestion/error path that exits the process. -/
inductive DumpSelection where
  | range (r : URange)
  | wholeFile
  | exited
deriving DecidableEq, Repr

def listIsInfix [DecidableEq α] : List α → List α → Bool
  | pat, [] => pat.isEmpty
  | pat, a :: rest => pat.isPrefixOf (a :: rest) || listIsInfix pat rest

/-- Rust `str::contains` (substring test). -/
def substrContains (s pat : String) : Bool := listIsInfix pat.data s.data

/-- Models `get_dump_range`: with exactly one item its range is returned before the
goal is even examined; otherwise dispatch on the goal. -/
def get_dump_range (goal : ToDump) (fmt : Format)
    (items : List (Item × URange)) : DumpSelection :=
  let _ := fmt
  if items.length = 1 then
    match items.head? with
    | some p => .range p.2
    | none => .exited
  else
    match goal with
    | .everything => .wholeFile
    | .byIndex v =>
      match items.get? v with
      | some p => .range p.2
      | none => .exited
    | .function f nth =>
      let filtered := items.filter fun p => substrContains p.1.name f
      if nth.isNone && filtered.length = 1 then
        match filtered.head? with
        | some p => .range p.2
        | none => .exited
      else
        match nth.bind fun n => filtered.get? n with
        | some p => .range p.2
        | none => .exited
    | .unspecified => .exited

/-! The context resolver (src/lib.rs `get_context_for`) -/

/-- Models `RawLines for Statement`: the referenceable text of a statement. -/
def stmtLines : Statement → Option String
  | .instruction i => i.args
  | .directive (.setValue _ v) => some v
  | _ => none

/-- The `mangled_name → range` map built at the top of `get_context_for`. -/
def itemsToNameMap (items : List (Item × URange)) : List (String × URange) :=
  items.foldl (fun m p => assocSet m p.1.mangled_name p.2) []

/-- Processing of the references found in one popped range: each new raw
reference is recorded in `processed`; when it names another item whose range
differs from the starting range, that range is queued (when depth remains)
and appended to the output. -/
def contextStep (nameMap : List (String × URange)) (self_range : URange)
    (d : Nat) : List String → List String → List (URange × Nat) →
    List URange → List String × List (URange × Nat) × List URange
  | [], processed, pending, out => (processed, pending, out)
  | raw :: raws, processed, pending, out =>
    if processed.contains raw then
      contextStep nameMap self_range d raws processed pending out
    else
      let processed := raw :: processed
      match assocFind nameMap raw with
      | none => contextStep nameMap self_range d raws processed pending out
      | some r =>
        if r = self_range then
          contextStep nameMap self_range d raws processed pending out
        else
          let pending := if d > 0 then (r, d - 1) :: pending else pending
          contextStep nameMap self_range d raws processed pending (out ++ [r])

/-- The worklist loop of `get_context_for`.  The fuel only bounds the number
of iterations; `contextGo_isSome` below proves the bound chosen in
`get_context_for` is never exhausted, i.e. the loop terminates. -/
def contextGo (nameMap : List (String × URange)) (all : List Statement)
    (self_range : URange) : Nat → List (URange × Nat) → List String →
    List URange → Option (List URange)
  | _, [], _, out => some out
  | 0, _ :: _, _, _ => none
  | fuel + 1, (r, d) :: pending, processed, out =>
    let raws := ((sliceL all r).filterMap stmtLines).filterMap global_reference
    let s := contextStep nameMap self_range d raws processed pending out
    contextGo nameMap all self_range fuel s.2.1 s.1 s.2.2

def sortByStart (l : List URange) : List URange :=
  l.insertionSort fun a b => a.start ≤ b.start

/-- Models `get_context_for`. -/
def get_context_for (depth : Nat) (all : List Statement) (self_range : URange)
    (items : List (Item × URange)) : List URange :=
  if depth = 0 then []
  else
    match contextGo (itemsToNameMap items) all self_range
        ((all.length + 2) ^ (depth + 1)) [(self_range, depth)] [] [] with
    | some out => sortByStart out
    | none => []

/-! Constant scanning and `Asm::extra_context` (src/asm.rs) -/

/-- Models `scan_constant`: a known constant label extends through the contiguous
run of data declarations that follows it. -/
def scan_constant (name : String) (sections : List (String × Nat))
    (body : List Statement) : Option URange :=
  match assocFind sections name with
  | none => none
  | some start =>
    let cnt :=
      ((body.drop (start + 1)).takeWhile fun s =>
        match s with
        | .directive (.data _ _) => true
        | _ => false).length
    some ⟨start, start + cnt + 1⟩

/-- The constant table of `extra_context`: a label immediately followed by a
data declaration. -/
def constantsMap (lines : List Statement) : List (String × Nat) :=
  lines.enum.foldl
    (fun m p =>
      match p.2 with
      | .label l =>
        match lines.get? (p.1 + 1) with
        | some (.directive (.data _ _)) => assocSet m l.id p.1
        | _ => m
      | _ => m)
    []

/-- Referenceable text for the constant scan (instruction arguments and
generic directives). -/
def constStmtText : Statement → Option String
  | .instruction i => i.args
  | .directive (.generic g) => some g
  | _ => none

def constPushes (constants : List (String × Nat)) (lines : List Statement)
    (print_range : URange) (seen : List URange) (labels : List String)
    (pending : List URange) : List URange :=
  labels.foldl
    (fun pend label =>
      match scan_constant label constants lines with
      | some cr =>
        if !(seen.contains cr) && !(print_range.fully_contains cr) then cr :: pend
        else pend
      | none => pend)
    pending

/-- The recursive constant-scan worklist of `extra_context` (fueled; the
fuel is generous and only present to make the definition structural). -/
def constLoopGo (lines : List Statement) (constants : List (String × Nat))
    (print_range : URange) : Nat → List URange → List URange → List URange
  | 0, _, seen => seen
  | _ + 1, [], seen => seen
  | fuel + 1, subset :: pending, seen =>
    let seen := if seen.contains subset then seen else subset :: seen
    let labels := (((sliceL lines subset).filterMap constStmtText).map local_labels).flatten
    constLoopGo lines constants print_range fuel
      (constPushes constants lines print_range seen labels pending) seen

def removeURange (r : URange) (seen : List URange) : List URange :=
  seen.filter (· ≠ r)

/-- Models `BTreeSet<URange>` iterates in the lexicographic `(start, end)` order. -/
def sortURanges (l : List URange) : List URange :=
  l.insertionSort fun a b =>
    a.start < b.start ∨ (a.start = b.start ∧ a.stop ≤ b.stop)

/-- Models `Asm::extra_context`: context ranges, then (optionally) referenced
constants, then the `--simplify` filter.  `load_rust_sources` only fills the
source cache and does not affect the returned ranges. -/
def extra_context (td : String → Option Demangle) (fmt : Format)
    (lines : List Statement) (range : URange)
    (items : List (Item × URange)) : List URange :=
  let _ := td
  let res := get_context_for fmt.context lines range items
  let res :=
    if fmt.include_constants then
      let print_range := range
      let constants := constantsMap lines
      let seen := constLoopGo lines constants print_range
        ((lines.length + 2) ^ (lines.length + 2)) [print_range] []
      let seen := removeURange print_range seen
      res ++ sortURanges seen
    else res
  if fmt.simplify then
    res.filter fun r =>
      (sliceL lines r).any fun s =>
        !(s.boring ||
          (match s with
           | .nothing => true
           | .label _ => true
           | _ => false))
  else res

/-! The range renderer (src/asm.rs `dump_range`) -/

inductive Source where
  | Crate | External | Stdlib | Rustc
deriving DecidableEq, Repr

def Source.show_for : Source → SourcesFrom → Bool
  | .Crate, _ => true
  | .External, .ThisWorkspace => false
  | .External, .AllCrates => true
  | .External, .AllSources => true
  | .Rustc, from0 | .Stdlib, from0 =>
    match from0 with
    | .ThisWorkspace => false
    | .AllCrates => false
    | .AllSources => true

/-- A file-table entry: recorded path, and (when the source was located)
its classification and cached lines. -/
abbrev SourceFile := String × Option (Source × List String)

/-- The filter of `used_labels`: which statements contribute text that can
mention a local label. -/
def stmtRefText : Statement → Option String
  | .label _ => none
  | .nothing => none
  | .directive d =>
    match d with
    | .file _ => none
    | .loc _ => none
    | .global _ => none
    | .subsectionsViaSym => none
    | .symIsFun _ => none
    | .data _ v => some v
    | .setValue _ v => some v
    | .generic g => some g
    | .sectionStart ss => some ss
  | .instruction i => i.args
  | .dunno s => some s

/-- Models `used_labels`: every local-label-shaped substring mentioned in the
slice. -/
def used_labels (stmts : List Statement) : List String :=
  ((stmts.filterMap stmtRefText).map local_labels).flatten

/-- Rust `str::trim_start` (ASCII whitespace fragment). -/
def trimStartS (s : String) : String := ⟨s.data.dropWhile Char.isWhitespace⟩

/-- One printed line of `dump_range`, abstracting over the colouring and
exact formatting: `debug` is the verbosity>3 echo, `locPos`/`locSrc`/
`locCorrupted`/`locMissing` come from the `.loc` annotation path, `line` is
a statement rendered with a name-display mode, `blank` replaces an elided
label run. -/
inductive OutLine where
  | debug (s : Statement)
  | locPos (fname : String) (line : Nat)
  | locSrc (text : String)
  | locCorrupted
  | locMissing
  | line (s : Statement) (mode : NameDisplay)
  | blank
deriving DecidableEq, Repr

def OutLine.isLocDerived : OutLine → Bool
  | .locPos _ _ => true
  | .locSrc _ => true
  | .locCorrupted => true
  | .locMissing => true
  | _ => false

/-- One iteration of the `dump_range` loop: the produced output lines and
the updated `(prev_loc, empty_line)` state, or the `panic!` on a `.loc`
whose file id is absent from the table. -/
def dumpStep (files : List (Nat × SourceFile)) (fmt : Format)
    (used : List String) (ix : Nat) (prev : Loc) (empty_line : Bool)
    (line : Statement) : Except String (List OutLine × Loc × Bool) :=
  let dbg : List OutLine := if fmt.verbosity > 3 then [.debug line] else []
  match line with
  | .directive (.file _) => .ok (dbg, prev, empty_line)
  | .directive (.loc loc) =>
    if !fmt.rust then .ok (dbg, prev, empty_line)
    else if loc.line = 0 then .ok (dbg, prev, empty_line)
    else if locEq loc prev then .ok (dbg, prev, empty_line)
    else
      match assocFind files loc.file with
      | some (fname, some (source, file)) =>
        let evs :=
          if source.show_for fmt.sources_from then
            OutLine.locPos fname loc.line ::
              (match file.get? (loc.line - 1) with
               | some rust_line => [.locSrc (trimStartS rust_line)]
               | none => [.locCorrupted])
          else []
        .ok (dbg ++ evs, loc, false)
      | some (fname, none) =>
        .ok (dbg ++ (if fmt.verbosity > 1 then [.locMissing] else []) ++
          [.locPos fname loc.line], loc, false)
      | none => .error "DWARF file refers to an undefined location"
  | .label l =>
    if l.kind = .Local || l.kind = .Temp then
      if ix = 0 || used.contains l.id then
        .ok (dbg ++ [.line line .Short], prev, empty_line)
      else
        match fmt.redundant_labels with
        | .Keep => .ok (dbg ++ [.line line .Short], prev, empty_line)
        | .Blanks =>
          if !empty_line && l.kind ≠ .Temp then .ok (dbg ++ [.blank], prev, true)
          else .ok (dbg, prev, empty_line)
        | .Strip => .ok (dbg, prev, empty_line)
    else
      if fmt.simplify && line.boring then .ok (dbg, prev, empty_line)
      else .ok (dbg ++ [.line line fmt.name_display], prev, false)
  | _ =>
    if fmt.simplify && line.boring then .ok (dbg, prev, empty_line)
    else .ok (dbg ++ [.line line fmt.name_display], prev, false)

def dumpGo (files : List (Nat × SourceFile)) (fmt : Format)
    (used : List String) : Nat → Loc → Bool → List Statement →
    Except String (List OutLine)
  | _, _, _, [] => .ok []
  | ix, prev, empty_line, line :: rest =>
    match dumpStep files fmt used ix prev empty_line line with
    | .error e => .error e
    | .ok (evs, prev, empty_line) =>
      match dumpGo files fmt used (ix + 1) prev empty_line rest with
      | .error e => .error e
      | .ok evs2 => .ok (evs ++ evs2)

/-- Models `dump_range` (src/asm.rs). -/
def dump_range (files : List (Nat × SourceFile)) (fmt : Format)
    (print_range : URange) (body : List Statement) :
    Except String (List OutLine) :=
  let stmts := sliceL body print_range
  let used := if fmt.redundant_labels = .Keep then [] else used_labels stmts
  dumpGo files fmt used 0 default false stmts

/-! Concrete fixtures used by witnesses and counterexamples -/

/-- A concrete demangler oracle covering the mangled names used in the
fixtures (legacy `_ZN..E` scheme, as `rustc_demangle` would resolve them). -/
def exTd : String → Option Demangle := fun s =>
  if s = "_ZN13sample_merged3two17h0afab563317f9d7bE" then
    some ⟨"sample_merged::two::h0afab563317f9d7b", "sample_merged::two"⟩
  else if s = "_ZN6sample4main17hb59e25bba3071c26E" then
    some ⟨"sample::main::hb59e25bba3071c26", "sample::main"⟩
  else none

/-- The Linux merged-function sequence from the comment in `find_items`. -/
def exMergedLines : List Statement :=
  [.directive (.global "_ZN13sample_merged3two17h0afab563317f9d7bE"),
   .directive (.symIsFun "_ZN13sample_merged3two17h0afab563317f9d7bE"),
   .directive (.setValue "_ZN13sample_merged3two17h0afab563317f9d7bE"
     "_ZN13sample_merged12one_plus_oneE")]

/-- Two mutually-referencing items: A's body mentions B's mangled name and
vice versa. -/
def exCtxStmts : List Statement :=
  [.label ⟨"_ZA", .Global⟩, .instruction ⟨"call", some "_ZB"⟩,
   .label ⟨"_ZB", .Global⟩, .instruction ⟨"call", some "_ZA"⟩]

def exItemA : Item := ⟨"a", "a", 0, 2, 2, "_ZA"⟩

def exItemB : Item := ⟨"b", "b", 0, 2, 2, "_ZB"⟩

def exCtxItems : List (Item × URange) := [(exItemA, ⟨0, 2⟩), (exItemB, ⟨2, 4⟩)]

/-- A function whose body references a constant (label + data declaration)
lying inside the printed range. -/
def exConstLines : List Statement :=
  [.label ⟨"_ZA", .Global⟩,
   .instruction ⟨"leaq", some ".Lconst(%rip)"⟩,
   .label ⟨".Lconst", .Local⟩,
   .directive (.data "ascii" "\"hi\"")]

/-- Baseline formatting options: no source interleaving, keep labels. -/
def exFmt : Format :=
  { rust := false, context := 0, color := false, name_display := .Short,
    redundant_labels := .Keep, verbosity := 0, simplify := false,
    include_constants := false, keep_blank := false,
    sources_from := .AllSources }

def exFmtConst : Format := { exFmt with include_constants := true }

/-- The end-to-end scenario of the spec: a demangling function label, a
body, a blank line, a `.loc` whose file id (99) is absent from the file
table, and the function-end label. -/
def exDumpBody : List Statement :=
  [.label ⟨"_ZN6sample4main17hb59e25bba3071c26E", .Global⟩,
   .instruction ⟨"pushq", some "%rax"⟩,
   .nothing,
   .directive (.loc ⟨99, 7, 3, none⟩),
   .label ⟨".Lfunc_end0", .Local⟩]

/-- A scan state with an item opened at statement index 2. -/
def exScanState : ScanState :=
  ⟨0, some ⟨"sample::main", "sample::main::hb59e25bba3071c26", 0, 2, 0,
    "_ZN6sample4main17hb59e25bba3071c26E"⟩, [("sample::main", 1)], []⟩

/-- Weight of the context worklist: pending entries of depth `d` count
`(B+2)^d`; it strictly decreases at every iteration of `contextGo`. -/
def ctxWeight (B : Nat) (pending : List (URange × Nat)) : Nat :=
  (pending.map fun p => (B + 2) ^ p.2).sum

instance : IsTotal URange fun a b => a.start ≤ b.start :=
  ⟨fun a b => Nat.le_total a.start b.start⟩

instance : IsTrans URange fun a b => a.start ≤ b.start :=
  ⟨fun _ _ _ => Nat.le_trans⟩

end ShowAsm

deriving instance DecidableEq for Except

namespace ShowAsm

/-! Theorems about the claims -/

theorem lfunc_check_eq (cs : List Char) :
    "Lfunc_end".data.isPrefixOf (stripDotL cs) =
      (".Lfunc_end".data.isPrefixOf cs || "Lfunc_end".data.isPrefixOf cs) := by
  have hdot : ".Lfunc_end".data = '.' :: "Lfunc_end".data := by decide
  have hL : "Lfunc_end".data = 'L' :: "func_end".data := by decide
  cases cs with
  | nil => decide
  | cons c rest =>
    rw [hdot]
    by_cases h : c = '.'
    · subst h
      rw [hL]
      simp [stripDotL, List.isPrefixOf]
    · rw [hL]
      simp [stripDotL, List.isPrefixOf, h, Ne.symm h]

/-- Claim C2 (corrected): the end-of-function predicate consumed by the item
finder holds exactly for labels whose identifier starts with `.Lfunc_end` or
`Lfunc_end` (the `specEndOfFn` reading of the amended claim); a
`cfi_endproc` directive is not end-of-function.  Such a function-end label
closes the currently open item in the forward scan of `find_items`. -/
theorem c2_end_of_fn_amended :
    (∀ s : Statement, s.is_end_of_fn = specEndOfFn s) ∧
    (∀ (td : String → Option Demangle) (lines : List Statement)
      (st : ScanState) (ix : Nat) (l : Label),
      Statement.is_end_of_fn (.label l) = true →
      scanStep td lines st ix (.label l) =
        match st.item with
        | some it =>
          { st with
            item := none
            res := insertBT st.res
              { it with len := ix - it.len, non_blank_len := ix - it.len }
              ⟨st.secStart, ix⟩ }
        | none => st) := by
  constructor
  · intro s
    cases s with
    | label l =>
      simpa [Statement.is_end_of_fn, specEndOfFn] using lfunc_check_eq l.id.data
    | directive d => rfl
    | instruction i => rfl
    | nothing => rfl
    | dunno r => rfl
  · intro td lines st ix l h
    simp [scanStep, Statement.is_section_start, Statement.is_global, h]

/-- Claim C2, counterexample to the claim as stated: the unwind-table
terminator `cfi_endproc` (parsed as a generic directive) is NOT classified
as end-of-function by the code. -/
theorem c2_cfi_endproc_not_end : Statement.is_end_of_fn
    (.directive (.generic "cfi_endproc")) = false := rfl

/-- Claim C2, witness: the amended closing behaviour evaluated on a concrete
open item and a concrete `.Lfunc_end0` label. -/
theorem c2_end_of_fn_witness :
    scanStep exTd [] exScanState 4 (.label ⟨".Lfunc_end0", .Local⟩) =
      (match exScanState.item with
       | some it =>
         { exScanState with
           item := none
           res := insertBT exScanState.res
             { it with len := 4 - it.len, non_blank_len := 4 - it.len }
             ⟨exScanState.secStart, 4⟩ }
       | none => exScanState) :=
  c2_end_of_fn_amended.2 exTd [] exScanState 4 ⟨".Lfunc_end0", .Local⟩ (by decide)

/-- Claim C3 (code bug): `URange::fully_contains` has its comparisons
reversed — `A.fully_contains(B)` as written in src/lib.rs tests `A ⊆ B`,
so it returns `false` on `A = 0..10`, `B = 2..5` where the claim (and the
function's name) require `true`, and `true` on the swapped pair; as a
consequence `extra_context` queues and re-prints a constant (range `2..4`)
that is already fully inside the chosen print range (`0..4`), which the
claim says must not be queued. -/
theorem c3_fully_contains_eval :
    URange.fully_contains ⟨0, 10⟩ ⟨2, 5⟩ = false ∧
    URange.fully_contains ⟨2, 5⟩ ⟨0, 10⟩ = true ∧
    extra_context exTd exFmtConst exConstLines ⟨0, 4⟩ [] = [⟨2, 4⟩] :=
  ⟨by decide, by decide, by decide⟩

/-- Claim C5 (confirmed): during the forward scan of `find_items`, a
global-export directive at index `ix` moves `section_start` to `ix` exactly
when `section_start + 3 < ix`, and changes nothing else; at distance 3 or
less the state is untouched. -/
theorem c5_global_deep_in_section (td : String → Option Demangle)
    (lines : List Statement) (st : ScanState) (ix : Nat) (g : String) :
    scanStep td lines st ix (.directive (.global g)) =
      if st.secStart + 3 < ix then { st with secStart := ix } else st := by
  by_cases h : st.secStart + 3 < ix <;>
    simp [scanStep, Statement.is_section_start, Statement.is_global,
      Statement.is_end_of_fn, h]

/-- Claim C6 (confirmed): `Loc` equality is decided by `(file, line)` only;
column and extra are ignored, as on the spec's concrete examples. -/
theorem c6_loc_eq_file_line :
    (∀ a b : Loc, locEq a b = true ↔ (a.file = b.file ∧ a.line = b.line)) ∧
    locEq ⟨1, 5, 2, none⟩ ⟨1, 5, 9, none⟩ = true ∧
    locEq ⟨1, 5, 2, none⟩ ⟨2, 5, 2, none⟩ = false ∧
    locEq ⟨1, 5, 2, none⟩ ⟨1, 6, 2, none⟩ = false := by
  refine ⟨fun a b => ?_, by decide, by decide, by decide⟩
  simp [locEq]

/-- Claim C7 (confirmed): `label_kind` tries the local, global and temp
patterns in that priority order with first match winning and `Unknown` when
none match, and classifies the spec's examples accordingly (including a
one-underscore and a two-underscore mangled `ZN` shape). -/
theorem c7_label_kind_cases :
    (∀ s : String, label_kind s =
      if localMatches s then .Local
      else if globalMatches s then .Global
      else if tempMatches s then .Temp
      else .Unknown) ∧
    label_kind ".Lexception0" = .Local ∧
    label_kind "LBB0_1" = .Local ∧
    label_kind "Ltmp12" = .Temp ∧
    label_kind "_ZN6sample4main17hb59e25bba3071c26E" = .Global ∧
    label_kind
      "__ZN4core3ptr50drop_in_place$LT$rand..rngs..thread..ThreadRng$GT$17hba90ed09529257ccE" =
      .Global ∧
    label_kind "GCC_except_table0" = .Unknown :=
  ⟨fun _ => rfl, by decide, by decide, by decide, by decide, by decide, by decide⟩

theorem assocFind_set_self [DecidableEq κ] (l : List (κ × ν)) (k : κ) (v : ν) :
    assocFind (assocSet l k v) k = some v := by
  induction l with
  | nil => simp [assocSet, assocFind]
  | cons p rest ih =>
    obtain ⟨k', v'⟩ := p
    by_cases h : k' = k
    · subst h; simp [assocSet, assocFind]
    · simp [assocSet, assocFind, h, ih]

theorem assocFind_set_ne [DecidableEq κ] (l : List (κ × ν)) (k k' : κ) (v : ν)
    (h : k' ≠ k) : assocFind (assocSet l k v) k' = assocFind l k' := by
  induction l with
  | nil => simp [assocSet, assocFind, Ne.symm h]
  | cons p rest ih =>
    obtain ⟨k0, v0⟩ := p
    by_cases h0 : k0 = k
    · subst h0; simp [assocSet, assocFind, Ne.symm h]
    · simp only [assocSet, h0, if_false, assocFind]
      split
      · rfl
      · exact ih

theorem assocGetD_set_self (l : List (String × Nat)) (k : String) (v : Nat) :
    assocGetD (assocSet l k v) k = v := by
  simp [assocGetD, assocFind_set_self]

theorem assocGetD_set_ne (l : List (String × Nat)) (k k' : String) (v : Nat)
    (h : k' ≠ k) : assocGetD (assocSet l k v) k' = assocGetD l k' := by
  simp [assocGetD, assocFind_set_ne l k k' v h]

theorem mem_insertBT_self (l : List (Item × URange)) (k : Item) (v : URange) :
    (k, v) ∈ insertBT l k v := by
  induction l with
  | nil => simp [insertBT]
  | cons p rest ih =>
    obtain ⟨k', v'⟩ := p
    by_cases h : k' = k
    · subst h; simp [insertBT]
    · simp only [insertBT, h, if_false, List.mem_cons]
      exact Or.inr ih

theorem mem_insertBT_of_ne (l : List (Item × URange)) (k : Item) (v : URange)
    (it : Item) (r : URange) (hne : it ≠ k) (hmem : (it, r) ∈ l) :
    (it, r) ∈ insertBT l k v := by
  induction l with
  | nil => cases hmem
  | cons p rest ih =>
    obtain ⟨k', v'⟩ := p
    rcases List.mem_cons.mp hmem with heq | hmem2
    · by_cases h : k' = k
      · exfalso
        apply hne
        rw [(Prod.mk.injEq _ _ _ _).mp heq |>.1, h]
      · simp only [insertBT, h, if_false, List.mem_cons]
        exact Or.inl heq
    · by_cases h : k' = k
      · subst h
        rw [insertBT, if_pos rfl]
        exact List.mem_cons.mpr (Or.inr hmem2)
      · simp only [insertBT, h, if_false, List.mem_cons]
        exact Or.inr (ih hmem2)

theorem mergedStep_preserves (td : String → Option Demangle)
    (G : List (String × Nat)) (nr : List (String × Nat) × List (Item × URange))
    (e : Nat) (line : Statement) (it : Item) (r : URange)
    (hmem : (it, r) ∈ nr.2) (hcnt : it.index < assocGetD nr.1 it.name) :
    (it, r) ∈ (mergedStep td G nr e line).2 ∧
      it.index < assocGetD (mergedStep td G nr e line).1 it.name := by
  unfold mergedStep
  split
  · next name value =>
    split
    · next start heq =>
      split
      · exact ⟨hmem, hcnt⟩
      · split
        · next dem hdem =>
          constructor
          · apply mem_insertBT_of_ne _ _ _ _ _ _ hmem
            intro hkey
            have hidx : it.index = assocGetD nr.1 dem.name := congrArg Item.index hkey
            have hname : it.name = dem.name := congrArg Item.name hkey
            rw [hname] at hcnt
            omega
          · by_cases hn : dem.name = it.name
            · rw [← hn] at hcnt ⊢
              rw [assocGetD_set_self]
              omega
            · rw [assocGetD_set_ne _ _ _ _ (fun hh => hn hh.symm)]
              exact hcnt
        · exact ⟨hmem, hcnt⟩
    · exact ⟨hmem, hcnt⟩
  · exact ⟨hmem, hcnt⟩

theorem mergedFold_preserves (td : String → Option Demangle)
    (G : List (String × Nat)) :
    ∀ (ls : List (Nat × Statement))
      (nr : List (String × Nat) × List (Item × URange)) (it : Item) (r : URange),
      (it, r) ∈ nr.2 → it.index < assocGetD nr.1 it.name →
      (it, r) ∈ (ls.foldl (fun nr p => mergedStep td G nr p.1 p.2) nr).2 := by
  intro ls
  induction ls with
  | nil => exact fun nr it r hm _ => hm
  | cons p rest ih =>
    intro nr it r hm hc
    obtain ⟨hm2, hc2⟩ := mergedStep_preserves td G nr p.1 p.2 it r hm hc
    exact ih _ it r hm2 hc2

theorem mergedFold_insert (td : String → Option Demangle)
    (G : List (String × Nat)) (foo v : String) (g e : Nat) (dem : Demangle)
    (hfind : assocFind G foo = some g) (hspan : e + 1 - g ≤ 10)
    (hdem : demangled td foo = some dem) :
    ∀ (ls₁ ls₂ : List (Nat × Statement))
      (nr : List (String × Nat) × List (Item × URange)),
      ∃ idx, (⟨dem.name, dem.hashed, idx, e + 1 - g, e + 1 - g, foo⟩,
        (⟨g, e + 1⟩ : URange)) ∈
        ((ls₁ ++ (e, Statement.directive (.setValue foo v)) :: ls₂).foldl
          (fun nr p => mergedStep td G nr p.1 p.2) nr).2 := by
  intro ls₁
  induction ls₁ with
  | nil =>
    intro ls₂ nr
    refine ⟨assocGetD nr.1 dem.name, ?_⟩
    have hstep : mergedStep td G nr e (.directive (.setValue foo v)) =
        (assocSet nr.1 dem.name (assocGetD nr.1 dem.name + 1),
         insertBT nr.2
           ⟨dem.name, dem.hashed, assocGetD nr.1 dem.name, e + 1 - g, e + 1 - g, foo⟩
           ⟨g, e + 1⟩) := by
      simp [mergedStep, hfind, hdem, Nat.not_lt.mpr hspan]
    simp only [List.nil_append, List.foldl_cons, hstep]
    apply mergedFold_preserves
    · exact mem_insertBT_self _ _ _
    · rw [assocGetD_set_self]
      show assocGetD nr.1 dem.name < assocGetD nr.1 dem.name + 1
      omega
  | cons p rest ih =>
    intro ls₂ nr
    simp only [List.cons_append, List.foldl_cons]
    exact ih ls₂ (mergedStep td G nr p.1 p.2)

theorem enumFrom_split (l : List α) :
    ∀ (n e : Nat) (a : α), l.get? e = some a →
      ∃ ls₁ ls₂, l.enumFrom n = ls₁ ++ (n + e, a) :: ls₂ := by
  induction l with
  | nil => intro n e a h; simp [List.get?] at h
  | cons x rest ih =>
    intro n e a h
    cases e with
    | zero =>
      simp only [List.get?] at h
      injection h with h
      subst h
      exact ⟨[], rest.enumFrom (n + 1), by simp [List.enumFrom]⟩
    | succ e2 =>
      simp only [List.get?] at h
      obtain ⟨l1, l2, heq⟩ := ih (n + 1) e2 a h
      refine ⟨(n, x) :: l1, l2, ?_⟩
      have harith : n + 1 + e2 = n + (e2 + 1) := by omega
      simp [List.enumFrom, heq, harith]

/-- Claim C4 (confirmed): for every statement stream, find_items'
merged-function pass creates an additional item for a `.globl foo` entry at
index `g` (as collected into the globals map) paired with a `.set foo, _` at
index `e` when the span `e+1-g` is at most 10 statements and `foo`
demangles — the item has `len = non_blank_len = e+1-g` and is mapped to the
range `g..e+1` — whereas a pair whose span exceeds 10 statements leaves the
pass's state untouched and produces no such item. -/
theorem c4_merged_functions :
    (∀ (td : String → Option Demangle) (lines : List Statement) (foo v : String)
      (g e : Nat) (dem : Demangle),
      assocFind (globalsMap lines) foo = some g →
      lines.get? e = some (.directive (.setValue foo v)) →
      e + 1 - g ≤ 10 →
      demangled td foo = some dem →
      ∃ idx, (⟨dem.name, dem.hashed, idx, e + 1 - g, e + 1 - g, foo⟩,
        (⟨g, e + 1⟩ : URange)) ∈ find_items td lines) ∧
    (∀ (td : String → Option Demangle) (G : List (String × Nat))
      (nr : List (String × Nat) × List (Item × URange)) (e : Nat)
      (foo v : String) (g : Nat),
      assocFind G foo = some g → e + 1 - g > 10 →
      mergedStep td G nr e (.directive (.setValue foo v)) = nr) := by
  constructor
  · intro td lines foo v g e dem hfind hget hspan hdem
    obtain ⟨ls₁, ls₂, heq⟩ := enumFrom_split lines 0 e _ hget
    have henum : lines.enum = ls₁ ++ (e, Statement.directive (.setValue foo v)) :: ls₂ := by
      simpa [List.enum] using heq
    unfold find_items
    rw [henum]
    exact mergedFold_insert td (globalsMap lines) foo v g e dem hfind hspan hdem ls₁ ls₂ _
  · intro td G nr e foo v g hfind hgt
    simp [mergedStep, hfind, hgt]

/-- Claim C4, witness: the concrete Linux merged-function sequence
(`.globl` at 0, `.type` at 1, `.set` at 2, span 3) produces the item, and a
pair with span 12 leaves the merged-pass state unchanged. -/
theorem c4_merged_witness :
    (∃ idx, ((⟨"sample_merged::two", "sample_merged::two::h0afab563317f9d7b", idx,
        3, 3, "_ZN13sample_merged3two17h0afab563317f9d7bE"⟩ : Item),
      (⟨0, 3⟩ : URange)) ∈ find_items exTd exMergedLines) ∧
    mergedStep exTd [("foo", 0)] ([], []) 11 (.directive (.setValue "foo" "bar")) =
      ([], []) :=
  ⟨c4_merged_functions.1 exTd exMergedLines
      "_ZN13sample_merged3two17h0afab563317f9d7bE" "_ZN13sample_merged12one_plus_oneE"
      0 2 ⟨"sample_merged::two::h0afab563317f9d7b", "sample_merged::two"⟩
      (by decide) (by decide) (by decide) (by decide),
   c4_merged_functions.2 exTd [("foo", 0)] ([], []) 11 "foo" "bar" 0
      (by decide) (by decide)⟩

theorem countNL_drop_le (cs : List Char) (n : Nat) :
    countNL (cs.drop n) ≤ countNL cs := by
  conv_rhs => rw [← List.take_append_drop n cs]
  rw [countNL, countNL, List.countP_append]
  omega

theorem parse_statement_consumes (cs : List Char) (s : Statement) (m : Nat)
    (h : parse_statement cs = some (s, m)) :
    countNL (cs.drop m) < countNL cs ∧ 0 < m := by
  unfold parse_statement at h
  split at h
  · exact Option.noConfusion h
  · next s2 n halt =>
    split at h
    · next tail heq =>
      injection h with h2
      injection h2 with hs hm
      have hdrop : cs.drop (n + 1) = tail := by
        have h1 : (cs.drop n).drop 1 = cs.drop (n + 1) := by
          rw [List.drop_drop]
        rw [← h1, heq]
        rfl
      have hle := countNL_drop_le cs n
      rw [heq] at hle
      have hcons : countNL ('\n' :: tail) = countNL tail + 1 := by
        simp [countNL, List.countP_cons]
      subst hm
      rw [hdrop]
      omega
    · exact Option.noConfusion h

theorem many0_le_newlines :
    ∀ (fuel : Nat) (cs : List Char) (ss : List Statement) (rest : List Char),
      many0PS fuel cs = some (ss, rest) → ss.length + countNL rest ≤ countNL cs := by
  intro fuel
  induction fuel with
  | zero => intro cs ss rest h; cases h
  | succ fuel ih =>
    intro cs ss rest h
    simp only [many0PS] at h
    split at h
    · injection h with h2
      injection h2 with hss hrest
      subst hss; subst hrest
      simp
    · next s n hps =>
      split at h
      · exact Option.noConfusion h
      · split at h
        · exact Option.noConfusion h
        · next ss2 rest2 hrec =>
          injection h with h2
          injection h2 with hss hrest
          subst hss; subst hrest
          obtain ⟨hlt, _⟩ := parse_statement_consumes cs s n hps
          have hrec2 := ih (cs.drop n) ss2 rest2 hrec
          simp only [List.length_cons]
          omega

/-- Claim C1 (corrected): `parse_file` is a total function and, whenever it
returns `Ok`, it produces at most one statement per newline-terminated
input line (a statement can span several lines, so the count can be
smaller, and inputs exist on which it returns an error instead). -/
theorem c1_parse_file_amended (input : String) (ss : List Statement)
    (h : parse_file input = .ok ss) : ss.length ≤ countNL input.data := by
  unfold parse_file at h
  cases hm : many0PS (input.data.length + 1) input.data with
  | none =>
    simp only [hm] at h
    exact Except.noConfusion h
  | some p =>
    obtain ⟨stmts, lo⟩ := p
    cases lo with
    | nil =>
      simp only [hm] at h
      injection h with h2
      have hlen := many0_le_newlines (input.data.length + 1) input.data stmts [] hm
      rw [← h2]
      simpa [countNL] using hlen
    | cons c rest =>
      simp only [hm] at h
      split at h <;> exact Except.noConfusion h

/-- Claim C1, counterexample to the claim as stated: the line `x:y` (a
label-shaped prefix followed by text that is not the LLVM annotation
comment) makes `parse_file` return an error rather than a `Dunno`
statement, and the two-line input `\n\t.byte 7\n` parses to a single
statement because the data-declaration pattern consumes the preceding blank
line — so `parse_file` neither succeeds on every input nor maps lines to
statements one-to-one. -/
theorem c1_counterexample :
    parse_file "x:y\n" = .error (.leftovers "x:y\n") ∧
    parse_file "\n\t.byte 7\n" = .ok [.directive (.data "byte" "7")] ∧
    countNL "x:y\n".data = 1 ∧ countNL "\n\t.byte 7\n".data = 2 :=
  ⟨by decide, by decide, by decide, by decide⟩

/-- Claim C1, witness: a one-line input that does parse, with the amended
bound instantiated on it. -/
theorem c1_parse_file_witness :
    parse_file "x\n" = .ok [.dunno "x"] ∧
    [Statement.dunno "x"].length ≤ countNL "x\n".data :=
  ⟨by decide, c1_parse_file_amended "x\n" [.dunno "x"] (by decide)⟩

/-- Claim C10 (confirmed): with exactly one item in the map,
`get_dump_range` returns that item's range for every goal — an `Everything`
request, any by-index request and any by-name request included — whereas
with a different item count (two items shown here) an `Everything` request
keeps its usual whole-file behaviour. -/
theorem dumpStep_no_rust (files : List (Nat × SourceFile)) (fmt : Format)
    (used : List String) (ix : Nat) (prev : Loc) (el : Bool) (line : Statement)
    (h : fmt.rust = false) :
    ∃ evs prev2 el2, dumpStep files fmt used ix prev el line = .ok (evs, prev2, el2) ∧
      evs.all (fun e => !e.isLocDerived) = true := by
  have hdbg : ∀ s : Statement,
      (if fmt.verbosity > 3 then [OutLine.debug s] else []).all
        (fun e => !e.isLocDerived) = true := by
    intro s; split <;> simp [OutLine.isLocDerived]
  cases line with
  | label l =>
    simp only [dumpStep]
    split
    · split
      · exact ⟨_, _, _, rfl, by simp [List.all_append, hdbg, OutLine.isLocDerived]⟩
      · split
        · exact ⟨_, _, _, rfl, by simp [List.all_append, hdbg, OutLine.isLocDerived]⟩
        · split
          · exact ⟨_, _, _, rfl, by simp [List.all_append, hdbg, OutLine.isLocDerived]⟩
          · exact ⟨_, _, _, rfl, hdbg _⟩
        · exact ⟨_, _, _, rfl, hdbg _⟩
    · split
      · exact ⟨_, _, _, rfl, hdbg _⟩
      · exact ⟨_, _, _, rfl, by simp [List.all_append, hdbg, OutLine.isLocDerived]⟩
  | directive d =>
    cases d with
    | file f => exact ⟨_, _, _, rfl, hdbg _⟩
    | loc l =>
      simp only [dumpStep, h, Bool.not_false, if_true]
      exact ⟨_, _, _, rfl, hdbg _⟩
    | global name =>
      simp only [dumpStep]
      split
      · exact ⟨_, _, _, rfl, hdbg _⟩
      · exact ⟨_, _, _, rfl, by simp [List.all_append, hdbg, OutLine.isLocDerived]⟩
    | generic raw =>
      simp only [dumpStep]
      split
      · exact ⟨_, _, _, rfl, hdbg _⟩
      · exact ⟨_, _, _, rfl, by simp [List.all_append, hdbg, OutLine.isLocDerived]⟩
    | symIsFun name =>
      simp only [dumpStep]
      split
      · exact ⟨_, _, _, rfl, hdbg _⟩
      · exact ⟨_, _, _, rfl, by simp [List.all_append, hdbg, OutLine.isLocDerived]⟩
    | setValue name value =>
      simp only [dumpStep]
      split
      · exact ⟨_, _, _, rfl, hdbg _⟩
      · exact ⟨_, _, _, rfl, by simp [List.all_append, hdbg, OutLine.isLocDerived]⟩
    | subsectionsViaSym =>
      simp only [dumpStep]
      split
      · exact ⟨_, _, _, rfl, hdbg _⟩
      · exact ⟨_, _, _, rfl, by simp [List.all_append, hdbg, OutLine.isLocDerived]⟩
    | sectionStart name =>
      simp only [dumpStep]
      split
      · exact ⟨_, _, _, rfl, hdbg _⟩
      · exact ⟨_, _, _, rfl, by simp [List.all_append, hdbg, OutLine.isLocDerived]⟩
    | data kind payload =>
      simp only [dumpStep]
      split
      · exact ⟨_, _, _, rfl, hdbg _⟩
      · exact ⟨_, _, _, rfl, by simp [List.all_append, hdbg, OutLine.isLocDerived]⟩
  | instruction i =>
    simp only [dumpStep]
    split
    · exact ⟨_, _, _, rfl, hdbg _⟩
    · exact ⟨_, _, _, rfl, by simp [List.all_append, hdbg, OutLine.isLocDerived]⟩
  | nothing =>
    simp only [dumpStep]
    split
    · exact ⟨_, _, _, rfl, hdbg _⟩
    · exact ⟨_, _, _, rfl, by simp [List.all_append, hdbg, OutLine.isLocDerived]⟩
  | dunno raw =>
    simp only [dumpStep]
    split
    · exact ⟨_, _, _, rfl, hdbg _⟩
    · exact ⟨_, _, _, rfl, by simp [List.all_append, hdbg, OutLine.isLocDerived]⟩

theorem dumpGo_no_rust (files : List (Nat × SourceFile)) (fmt : Format)
    (used : List String) (h : fmt.rust = false) :
    ∀ (stmts : List Statement) (ix : Nat) (prev : Loc) (el : Bool),
      ∃ out, dumpGo files fmt used ix prev el stmts = .ok out ∧
        out.all (fun e => !e.isLocDerived) = true := by
  intro stmts
  induction stmts with
  | nil => exact fun ix prev el => ⟨[], rfl, rfl⟩
  | cons line rest ih =>
    intro ix prev el
    obtain ⟨evs, prev2, el2, hstep, hall⟩ :=
      dumpStep_no_rust files fmt used ix prev el line h
    obtain ⟨out, hgo, hall2⟩ := ih (ix + 1) prev2 el2
    refine ⟨evs ++ out, ?_, ?_⟩
    · simp [dumpGo, hstep, hgo]
    · simp [List.all_append, hall, hall2]

/-- Claim C9 (confirmed): when source interleaving is off (`fmt.rust`
false), `dump_range` skips every `.loc` before consulting the file table:
it never reaches the undefined-file-id panic (modelled as `Except.error`)
and produces no `.loc`-derived output, for any file table, range and
body. -/
theorem c9_dump_without_rust (files : List (Nat × SourceFile)) (fmt : Format)
    (pr : URange) (body : List Statement) (h : fmt.rust = false) :
    ∃ out, dump_range files fmt pr body = .ok out ∧
      out.all (fun e => !e.isLocDerived) = true := by
  unfold dump_range
  exact dumpGo_no_rust files fmt _ h _ 0 default false

/-- Claim C9, witness: the spec's end-to-end scenario — a demangling
function label, an instruction, a blank line, a `.loc` whose file id 99 is
absent from the (empty) file table, and the function-end label — dumps
without panicking and prints exactly the label/instruction lines. -/
theorem c9_dump_witness :
    (∃ out, dump_range [] exFmt ⟨0, 5⟩ exDumpBody = .ok out ∧
      out.all (fun e => !e.isLocDerived) = true) ∧
    dump_range [] exFmt ⟨0, 5⟩ exDumpBody = .ok
      [.line (.label ⟨"_ZN6sample4main17hb59e25bba3071c26E", .Global⟩) .Short,
       .line (.instruction ⟨"pushq", some "%rax"⟩) .Short,
       .line .nothing .Short,
       .line (.label ⟨".Lfunc_end0", .Local⟩) .Short] :=
  ⟨c9_dump_without_rust [] exFmt ⟨0, 5⟩ exDumpBody rfl, by decide⟩

theorem contextStep_bound (nameMap : List (String × URange))
    (self_range : URange) (B : Nat) :
    ∀ (raws : List String) (processed : List String)
      (pending : List (URange × Nat)) (out : List URange) (d : Nat),
      ctxWeight B (contextStep nameMap self_range d raws processed pending out).2.1 ≤
        raws.length * (B + 2) ^ (d - 1) + ctxWeight B pending ∧
      (d = 0 →
        (contextStep nameMap self_range d raws processed pending out).2.1 = pending) := by
  intro raws
  induction raws with
  | nil =>
    intro processed pending out d
    exact ⟨by simp [contextStep], fun _ => rfl⟩
  | cons raw raws ih =>
    intro processed pending out d
    have hmono : ∀ (pend : List (URange × Nat)),
        ctxWeight B pend ≤ raws.length * (B + 2) ^ (d - 1) + ctxWeight B pending →
        ctxWeight B pend ≤
          (raw :: raws).length * (B + 2) ^ (d - 1) + ctxWeight B pending := by
      intro pend hp
      have : raws.length * (B + 2) ^ (d - 1) ≤
          (raws.length + 1) * (B + 2) ^ (d - 1) :=
        Nat.mul_le_mul_right _ (Nat.le_succ _)
      simp only [List.length_cons]
      omega
    simp only [contextStep]
    split
    · obtain ⟨h1, h2⟩ := ih processed pending out d
      exact ⟨hmono _ h1, h2⟩
    · split
      · obtain ⟨h1, h2⟩ := ih (raw :: processed) pending out d
        exact ⟨hmono _ h1, h2⟩
      · next r _ =>
        split
        · obtain ⟨h1, h2⟩ := ih (raw :: processed) pending out d
          exact ⟨hmono _ h1, h2⟩
        · cases d with
          | zero =>
            rw [if_neg (show ¬((0 : Nat) > 0) by omega)]
            obtain ⟨h1, h2⟩ := ih (raw :: processed) pending (out ++ [r]) 0
            exact ⟨hmono _ h1, h2⟩
          | succ d' =>
            rw [if_pos (show d' + 1 > 0 by omega)]
            obtain ⟨h1, _⟩ :=
              ih (raw :: processed) ((r, d' + 1 - 1) :: pending) (out ++ [r]) (d' + 1)
            refine ⟨?_, fun hz => absurd hz (Nat.succ_ne_zero _)⟩
            have hw : ctxWeight B ((r, d' + 1 - 1) :: pending) =
                (B + 2) ^ d' + ctxWeight B pending := by
              simp [ctxWeight]
            rw [hw] at h1
            simp only [Nat.add_sub_cancel] at h1 ⊢
            simp only [List.length_cons, Nat.succ_mul]
            omega

theorem contextGo_terminates (nameMap : List (String × URange))
    (all : List Statement) (self_range : URange) :
    ∀ (fuel : Nat) (pending : List (URange × Nat)) (processed : List String)
      (out : List URange),
      ctxWeight all.length pending < fuel →
      (contextGo nameMap all self_range fuel pending processed out).isSome = true := by
  intro fuel
  induction fuel with
  | zero => exact fun pending processed out h => absurd h (Nat.not_lt_zero _)
  | succ fuel ih =>
    intro pending processed out h
    match pending with
    | [] => rfl
    | (r, d) :: rest =>
      have hraws :
          (((sliceL all r).filterMap stmtLines).filterMap global_reference).length ≤
            all.length := by
        refine le_trans (List.length_filterMap_le _ _) ?_
        refine le_trans (List.length_filterMap_le _ _) ?_
        simp only [sliceL, List.length_take, List.length_drop]
        omega
      simp only [contextGo]
      obtain ⟨h1, h2⟩ := contextStep_bound nameMap self_range all.length
        (((sliceL all r).filterMap stmtLines).filterMap global_reference)
        processed rest out d
      apply ih
      have hcons : ctxWeight all.length ((r, d) :: rest) =
          (all.length + 2) ^ d + ctxWeight all.length rest := by
        simp [ctxWeight]
      cases d with
      | zero =>
        rw [h2 rfl]
        rw [hcons] at h
        simp only [pow_zero] at h
        omega
      | succ d' =>
        have hX : (0 : Nat) <
            (all.length + 2) ^ d' := Nat.pos_pow_of_pos _ (by omega)
        have hRX : (((sliceL all r).filterMap stmtLines).filterMap
              global_reference).length * (all.length + 2) ^ d' ≤
            all.length * (all.length + 2) ^ d' :=
          Nat.mul_le_mul_right _ hraws
        have hAX : all.length * (all.length + 2) ^ d' <
            (all.length + 2) ^ (d' + 1) := by
          rw [pow_succ]
          calc all.length * (all.length + 2) ^ d'
              = (all.length + 2) ^ d' * all.length := Nat.mul_comm _ _
            _ < (all.length + 2) ^ d' * (all.length + 2) :=
              mul_lt_mul_of_pos_left (by omega) hX
        rw [Nat.succ_sub_one] at h1
        rw [hcons] at h
        omega

/-- Claim C8 (confirmed): the context-resolver worklist terminates for every
statement stream, item map and depth (the fuel bound used by
`get_context_for` is never exhausted); on the synthetic pair of
mutually-referencing items under depth 2 it returns the other item's range
exactly once (the starting range is excluded although it is re-discovered);
and the returned ranges are always sorted by range start. -/
theorem c8_context_resolution :
    (∀ (depth : Nat) (all : List Statement) (self_range : URange)
      (items : List (Item × URange)),
      (contextGo (itemsToNameMap items) all self_range
        ((all.length + 2) ^ (depth + 1)) [(self_range, depth)] [] []).isSome = true) ∧
    get_context_for 2 exCtxStmts ⟨0, 2⟩ exCtxItems = [⟨2, 4⟩] ∧
    get_context_for 2 exCtxStmts ⟨2, 4⟩ exCtxItems = [⟨0, 2⟩] ∧
    (∀ (depth : Nat) (all : List Statement) (self_range : URange)
      (items : List (Item × URange)),
      List.Sorted (fun a b : URange => a.start ≤ b.start)
        (get_context_for depth all self_range items)) := by
  refine ⟨?_, by decide, by decide, ?_⟩
  · intro depth all self_range items
    apply contextGo_terminates
    have : ctxWeight all.length [(self_range, depth)] =
        (all.length + 2) ^ depth := by simp [ctxWeight]
    rw [this]
    exact Nat.pow_lt_pow_right (by omega) (Nat.lt_succ_self _)
  · intro depth all self_range items
    unfold get_context_for
    split
    · exact List.sorted_nil
    · split
      · exact List.sorted_insertionSort _ _
      · exact List.sorted_nil

theorem c10_single_item_range :
    (∀ (goal : ToDump) (fmt : Format) (it : Item) (r : URange),
      get_dump_range goal fmt [(it, r)] = .range r) ∧
    (∀ (fmt : Format) (p q : Item × URange),
      get_dump_range .everything fmt [p, q] = .wholeFile) :=
  ⟨fun _ _ _ _ => rfl, fun _ _ _ => rfl⟩

end ShowAsm
